import Mathlib

/-!
Verification of the dense-matrix toolbox in `src/matrix.c`.

The C code computes with `double`; this development models `double` as `ℚ`
(exact arithmetic), a `double*` buffer as a total function `Nat → Nat → ℚ`
(`f i j` models the row-major cell `data[i * cols + j]`), and a nullable
`Matrix*` as `Option CMatrix`.  The `stderr` diagnostic that
`matrix_determinant` prints on non-square input is modelled as a list of
emitted messages returned next to the numeric result.  Allocation failure
(`malloc`/`calloc` returning `NULL`) is not modelled: allocation always
succeeds.  The interactive menu, random filling and the file system are out
of scope; the text persistence format is modelled by the token stream it
carries (`TxtFile`).
-/

attribute [local semireducible] Rat.add Rat.mul Rat.sub Rat.inv Rat.ofScientific

namespace MatrixC

/-- `#define EPS 1e-12`. -/
def EPS : ℚ := 1 / 10 ^ 12

/-- Model of the `Matrix` struct: `rows`, `cols`, and the owned buffer.
`data i j` models `data[i * cols + j]`; cells outside
`i < rows ∧ j < cols` are junk the C code never reads. -/
structure CMatrix where
  rows : Nat
  cols : Nat
  data : Nat → Nat → ℚ

/-- `matrix_get`: unchecked read of cell `(i, j)`. -/
def matrix_get (m : CMatrix) (i j : Nat) : ℚ := m.data i j

/-- Observable equality of two matrices: same shape and same value in every
in-range cell (out-of-range cells of the model are unread junk). -/
def matrixEq (a b : CMatrix) : Prop :=
  a.rows = b.rows ∧ a.cols = b.cols ∧
    ∀ i < a.rows, ∀ j < a.cols, a.data i j = b.data i j

instance (a b : CMatrix) : Decidable (matrixEq a b) := by
  unfold matrixEq; infer_instance

/-- `matrixEqO x b`: the possibly-`NULL` result `x` is a matrix observably
equal to `b` (in particular `x` is not `NULL`). -/
def matrixEqO : Option CMatrix → CMatrix → Prop
  | none, _ => False
  | some m, b => matrixEq m b

instance : (x : Option CMatrix) → (b : CMatrix) → Decidable (matrixEqO x b)
  | none, _ => isFalse fun h => h
  | some m, b => inferInstanceAs (Decidable (matrixEq m b))

/-- The `n × n` identity matrix (in-range cells `δ i j`, rest zero-filled as
by `matrix_create`). -/
def identityMatrix (n : Nat) : CMatrix :=
  ⟨n, n, fun i j => if i < n ∧ j < n then (if i = j then 1 else 0) else 0⟩

/-- `matrix_add_sub`: `NULL` on a `NULL` argument or shape mismatch,
otherwise the fresh `rows × cols` matrix with
`c->data[i] = a->data[i] + (subtract ? -b->data[i] : b->data[i])`. -/
def matrix_add_sub : Option CMatrix → Option CMatrix → Bool → Option CMatrix
  | some a, some b, subtract =>
    if a.rows ≠ b.rows ∨ a.cols ≠ b.cols then none
    else
      some ⟨a.rows, a.cols, fun i j =>
        if i < a.rows ∧ j < a.cols then
          a.data i j + (if subtract then -(b.data i j) else b.data i j)
        else 0⟩
  | _, _, _ => none

/-- `matrix_multiply`: `NULL` on a `NULL` argument or `a->cols ≠ b->rows`,
otherwise the `a.rows × b.cols` product, each cell accumulated over the
shared index into a zero-initialised result exactly as the C triple loop
does. -/
def matrix_multiply : Option CMatrix → Option CMatrix → Option CMatrix
  | some a, some b =>
    if a.cols ≠ b.rows then none
    else
      some ⟨a.rows, b.cols, fun i j =>
        if i < a.rows ∧ j < b.cols then
          (List.range a.cols).foldl (fun acc k => acc + a.data i k * b.data k j) 0
        else 0⟩
  | _, _ => none

/-- `matrix_transpose`: the `a.cols × a.rows` matrix with `t[j][i] = a[i][j]`
(no `NULL` check in the source). -/
def matrix_transpose (a : CMatrix) : CMatrix :=
  ⟨a.cols, a.rows, fun j i => if j < a.cols ∧ i < a.rows then a.data i j else 0⟩

/-- Pivot search shared by `matrix_determinant` and `matrix_inverse`:
`piv = i; for (r = i; r < n; ++r) if (fabs(f[r][i]) > fabs(f[piv][i])) piv = r;`. -/
def findPivot (f : Nat → Nat → ℚ) (i n : Nat) : Nat :=
  (List.range' i (n - i)).foldl (fun piv r => if |f r i| > |f piv i| then r else piv) i

/-- Swap of rows `i` and `p` over columns `c < w` (the C `for (c = 0; c < w; ++c)`
three-assignment swap); a no-op when `p = i`. -/
def rowSwapW (f : Nat → Nat → ℚ) (i p w : Nat) : Nat → Nat → ℚ :=
  fun r c =>
    if c < w then
      if r = i then f p c else if r = p then f i c else f r c
    else f r c

/-- One inner row update of the determinant elimination:
`factor = mat[r][i] / mat[i][i]; for (c = i; c < n; ++c) mat[r][c] -= factor * mat[i][c];`. -/
def elimRowDet (n i : Nat) (m : Nat → Nat → ℚ) (r : Nat) : Nat → Nat → ℚ :=
  fun r' c =>
    if r' = r ∧ i ≤ c ∧ c < n then m r' c - m r i / m i i * m i c
    else m r' c

/-- The determinant's elimination of column `i` from every row `r > i`
(the C `for (r = i + 1; r < n; ++r)` loop, run left to right). -/
def elimBelow (n i : Nat) (m : Nat → Nat → ℚ) : Nat → Nat → ℚ :=
  (List.range' (i + 1) (n - (i + 1))).foldl (elimRowDet n i) m

/-- State of `matrix_determinant`'s elimination: the (const) input buffer,
the working copy `mat`, the running `det` accumulator and the `sign` flag. -/
structure DetState where
  inp : Nat → Nat → ℚ
  mat : Nat → Nat → ℚ
  det : ℚ
  sign : Int

/-- One iteration body of the determinant loop at column `i` with chosen
pivot row `piv`: conditional swap and sign flip, `det *= pivot`, eliminate
below.  Every write targets the working copy `mat`. -/
def detStep (n i : Nat) (s : DetState) (piv : Nat) : DetState :=
  { s with
    mat := elimBelow n i (rowSwapW s.mat i piv n)
    det := s.det * rowSwapW s.mat i piv n i i
    sign := if piv = i then s.sign else -s.sign }

/-- The `for (i = 0; i < n; ++i)` loop of `matrix_determinant`, with the
remaining iteration count `fuel = n - i` made structural (the loop runs
while `i < n`, i.e. while `fuel > 0`).  When the selected pivot's magnitude
is below `EPS` the code sets `det = 0` and breaks out of the loop. -/
def detLoopS (n : Nat) : Nat → Nat → DetState → DetState
  | 0, _, s => s
  | fuel + 1, i, s =>
    if |s.mat (findPivot s.mat i n) i| < EPS then { s with det := 0 }
    else detLoopS n fuel (i + 1) (detStep n i s (findPivot s.mat i n))

/-- `matrix_determinant`: `0.0` on `NULL`, a `stderr` diagnostic and `0.0`
on non-square input, otherwise elimination on a private copy of the data,
returning `det * sign`. -/
def matrix_determinant : Option CMatrix → List String × ℚ
  | none => ([], 0)
  | some a =>
    if a.rows ≠ a.cols then (["Determinant: matrix is not square"], 0)
    else
      let s := detLoopS a.rows a.rows 0 ⟨a.data, a.data, 1, 1⟩
      ([], s.det * (s.sign : ℚ))

/-- The augmented buffer `E = [A | I]` built by `matrix_inverse`
(`E[i][j] = a(i,j)`, `E[i][n+j] = δ i j` for `i, j < n`). -/
def augInit (a : CMatrix) : Nat → Nat → ℚ :=
  fun i j =>
    if i < a.rows ∧ j < a.rows then a.data i j
    else if i < a.rows ∧ j < 2 * a.rows then (if j = a.rows + i then 1 else 0)
    else 0

/-- Conditional row swap followed by the normalisation of row `i`
(`div = E[i][i]; for (c = 0; c < 2n; ++c) E[i][c] /= div;`). -/
def invSwapNorm (n i : Nat) (E : Nat → Nat → ℚ) (piv : Nat) : Nat → Nat → ℚ :=
  let E1 := rowSwapW E i piv (2 * n)
  fun r c => if r = i ∧ c < 2 * n then E1 r c / E1 i i else E1 r c

/-- One inner row update of the Gauss-Jordan elimination: row `i` itself is
skipped (`continue`), as is any row whose factor has magnitude below `EPS`;
otherwise `E[r][c] -= factor * E[i][c]` across all `2n` columns. -/
def elimRowInv (n i : Nat) (E : Nat → Nat → ℚ) (r : Nat) : Nat → Nat → ℚ :=
  if r = i then E
  else if |E r i| < EPS then E
  else fun r' c => if r' = r ∧ c < 2 * n then E r' c - E r i * E i c else E r' c

/-- The `for (r = 0; r < n; ++r)` elimination of column `i` from every other
row, run left to right. -/
def elimOthers (n i : Nat) (E : Nat → Nat → ℚ) : Nat → Nat → ℚ :=
  (List.range n).foldl (elimRowInv n i) E

/-- One iteration body of the Gauss-Jordan loop at column `i` with chosen
pivot row `piv`. -/
def invStep (n i : Nat) (E : Nat → Nat → ℚ) (piv : Nat) : Nat → Nat → ℚ :=
  elimOthers n i (invSwapNorm n i E piv)

/-- State of `matrix_inverse`: the (const) input buffer, the augmented
working buffer `E`, and whether the singular early exit was taken. -/
structure InvState where
  inp : Nat → Nat → ℚ
  E : Nat → Nat → ℚ
  sing : Bool

/-- The `for (i = 0; i < n; ++i)` loop of `matrix_inverse`, with the
remaining iteration count `fuel = n - i` made structural; on a pivot of
magnitude below `EPS` the code frees the buffer and returns `NULL`
(modelled by the `sing` flag). -/
def invLoopS (n : Nat) : Nat → Nat → InvState → InvState
  | 0, _, s => s
  | fuel + 1, i, s =>
    if |s.E (findPivot s.E i n) i| < EPS then { s with sing := true }
    else invLoopS n fuel (i + 1) { s with E := invStep n i s.E (findPivot s.E i n) }

/-- `matrix_inverse`: `NULL` on `NULL` or non-square input (with a `stderr`
diagnostic in the source) or on a singular matrix; otherwise the fresh
`n × n` matrix extracted from the right half of the reduced buffer. -/
def matrix_inverse : Option CMatrix → Option CMatrix
  | none => none
  | some a =>
    if a.rows ≠ a.cols then none
    else
      let s := invLoopS a.rows a.rows 0 ⟨a.data, augInit a, false⟩
      if s.sing then none
      else
        some ⟨a.rows, a.rows, fun i j =>
          if i < a.rows ∧ j < a.rows then s.E i (a.rows + j) else 0⟩

/-- The Gauss-Jordan run on `a` reaches column `i` with working buffer `E`
(the input is square and no earlier column took the singular exit). -/
inductive InvReaches (a : CMatrix) : Nat → (Nat → Nat → ℚ) → Prop
  | init : InvReaches a 0 (augInit a)
  | step {i : Nat} {E : Nat → Nat → ℚ} :
      InvReaches a i E → i < a.rows →
      ¬ |E (findPivot E i a.rows) i| < EPS →
      InvReaches a (i + 1) (invStep a.rows i E (findPivot E i a.rows))

/-- The determinant elimination starting at column `i` (with
`fuel = n - i` columns left) runs all remaining columns without taking the
singular (`< EPS` pivot) early exit. -/
def detCompletes (n : Nat) : Nat → Nat → (Nat → Nat → ℚ) → Bool
  | 0, _, _ => true
  | fuel + 1, i, mat =>
    if |mat (findPivot mat i n) i| < EPS then false
    else detCompletes n fuel (i + 1) (elimBelow n i (rowSwapW mat i (findPivot mat i n) n))

/-- Every elimination factor read at column `i` (after swap and
normalisation) is either exactly `0` or of magnitude at least `EPS`, i.e.
the `fabs(factor) < EPS` skip never discards a non-zero factor. -/
def invFactorsClean (n i : Nat) (E2 : Nat → Nat → ℚ) : Bool :=
  (List.range n).all fun r =>
    r == i || (decide (E2 r i = 0) || decide (EPS ≤ |E2 r i|))

/-- The Gauss-Jordan run starting at column `i` (with `fuel = n - i`
columns left) completes cleanly: every selected pivot has magnitude at
least `EPS`, and every skipped elimination factor is exactly `0`. -/
def invClean (n : Nat) : Nat → Nat → (Nat → Nat → ℚ) → Bool
  | 0, _, _ => true
  | fuel + 1, i, E =>
    if |E (findPivot E i n) i| < EPS then false
    else
      invFactorsClean n i (invSwapNorm n i E (findPivot E i n)) &&
        invClean n fuel (i + 1) (invStep n i E (findPivot E i n))

/-- The elements of a square buffer as a Mathlib matrix over `Fin n`. -/
def toMat (n : Nat) (f : Nat → Nat → ℚ) : Matrix (Fin n) (Fin n) ℚ :=
  Matrix.of fun i j => f i j

/-- Left half of the augmented buffer as a Mathlib matrix. -/
def leftB (n : Nat) (E : Nat → Nat → ℚ) : Matrix (Fin n) (Fin n) ℚ :=
  Matrix.of fun i j => E i j

/-- Right half of the augmented buffer as a Mathlib matrix. -/
def rightB (n : Nat) (E : Nat → Nat → ℚ) : Matrix (Fin n) (Fin n) ℚ :=
  Matrix.of fun i j => E i (n + j)

/-- Follows the spec's words for the determinant algorithm (claim C2): walk
the columns; at column `i` select the row `r ∈ [i, n)` maximising
`|mat[r][i]|`; if that pivot's magnitude is below `1e-12` the routine stops
with no pivot list; otherwise record the pivot `mat[i][i]` after the swap,
count the swap if one was performed, and continue on the eliminated
matrix.  Returns the pivot list and the number of performed swaps. -/
def detPivotsSpec (n : Nat) : Nat → Nat → (Nat → Nat → ℚ) → Option (List ℚ × Nat)
  | 0, _, _ => some ([], 0)
  | fuel + 1, i, mat =>
    if |mat (findPivot mat i n) i| < EPS then none
    else
      match detPivotsSpec n fuel (i + 1)
          (elimBelow n i (rowSwapW mat i (findPivot mat i n) n)) with
      | none => none
      | some (ps, k) =>
        some (rowSwapW mat i (findPivot mat i n) n i i :: ps,
          if findPivot mat i n = i then k else k + 1)

/-- Follows the spec's words (claim C2): the determinant of a square matrix
is the accumulated product of the pivots multiplied by a sign that flips
once per performed row swap, and `0.0` outright if any selected pivot's
magnitude is below `1e-12`. -/
def matrix_determinant_spec (a : CMatrix) : ℚ :=
  match detPivotsSpec a.rows a.rows 0 a.data with
  | none => 0
  | some (ps, k) => ps.prod * (-1) ^ k

/-- Decimal digit count of `n` (fuel-based repeated division by 10). -/
def digitsLen : Nat → Nat → Nat
  | 0, _ => 1
  | fuel + 1, n => if n < 10 then 1 else digitsLen fuel (n / 10) + 1

/-- Number of decimal digits of a natural number. -/
def decDigits (n : Nat) : Nat := digitsLen n n

/-- The decimal exponent `e` of a non-zero rational: `10 ^ e ≤ |x| < 10 ^ (e+1)`. -/
def decExp (x : ℚ) : Int :=
  let p := decDigits x.num.natAbs
  let q := decDigits x.den
  if x.num.natAbs * 10 ^ q < x.den * 10 ^ p then (p : Int) - q - 1 else (p : Int) - q

/-- The value denoted by `printf("%.12g", x)`: `x` rounded to 12
significant decimal digits (the rounding the save routine's text format
applies to each cell). -/
def g12 (x : ℚ) : ℚ :=
  if x = 0 then 0
  else
    let s : ℚ := if x < 0 then -1 else 1
    let e := decExp x
    if 11 ≤ e then
      ((round (|x| / (10 : ℚ) ^ (e - 11).toNat) : ℤ) : ℚ) * 10 ^ (e - 11).toNat * s
    else
      ((round (|x| * (10 : ℚ) ^ (11 - e).toNat) : ℤ) : ℚ) / 10 ^ (11 - e).toNat * s

/-- The token stream carried by the text format: the header `rows cols`
followed by the `rows * cols` cell values in row-major order. -/
structure TxtFile where
  rows : Nat
  cols : Nat
  vals : List ℚ

/-- `matrix_save_txt`: writes the header, then every cell with `%.12g`. -/
def matrix_save_txt (m : CMatrix) : TxtFile :=
  ⟨m.rows, m.cols,
    (List.range m.rows).flatMap fun i =>
      (List.range m.cols).map fun j => g12 (matrix_get m i j)⟩

/-- `matrix_load_txt`: reads the header, allocates, then reads
`rows * cols` values in row-major order; fails (`NULL`) when the stream is
too short. -/
def matrix_load_txt (f : TxtFile) : Option CMatrix :=
  if f.rows * f.cols ≤ f.vals.length then
    some ⟨f.rows, f.cols, fun i j =>
      if i < f.rows ∧ j < f.cols then f.vals.getD (i * f.cols + j) 0 else 0⟩
  else none

/-- Cell `(i, j)` of a loaded matrix, when loading succeeds. -/
def loadEntry (f : TxtFile) (i j : Nat) : Option ℚ :=
  (matrix_load_txt f).map fun m => m.data i j

/-- A 1 × 2 matrix, used to exercise the non-square error paths. -/
def mNS : CMatrix := ⟨1, 2, fun _ j => (j : ℚ) + 1⟩

/-- The singular 2 × 2 matrix `[[1, 2], [2, 4]]` of the spec's concrete
scenario. -/
def mSing : CMatrix :=
  ⟨2, 2, fun i j => if i = 0 then (if j = 0 then 1 else 2) else (if j = 0 then 2 else 4)⟩

/-- The invertible 2 × 2 matrix `[[4, 3], [6, 3]]` of the spec's concrete
scenario. -/
def mGood : CMatrix :=
  ⟨2, 2, fun i j => if i = 0 then (if j = 0 then 4 else 3) else (if j = 0 then 6 else 3)⟩

/-- The 2 × 2 matrix `[[1, 2], [3, 4]]`. -/
def mTr : CMatrix :=
  ⟨2, 2, fun i j => if i = 0 then (if j = 0 then 1 else 2) else (if j = 0 then 3 else 4)⟩

/-- The 2 × 2 matrix `[[5, 6], [7, 8]]`. -/
def mB2 : CMatrix :=
  ⟨2, 2, fun i j => if i = 0 then (if j = 0 then 5 else 6) else (if j = 0 then 7 else 8)⟩

/-- `[[1e-12, 1], [99e-14, 1]]`: every pivot the Gauss-Jordan run selects
has magnitude at least `EPS` (they are `1e-12` and `1`), yet the
elimination factor `99e-14` at column 0 falls below `EPS` and is silently
skipped, so the computed "inverse" is far from the true inverse. -/
def cexA1 : CMatrix :=
  ⟨2, 2, fun i j =>
    if i = 0 then (if j = 0 then 1 / 10 ^ 12 else 1)
    else (if j = 0 then 99 / 10 ^ 14 else 1)⟩

/-- `[[1e-13, 1e13], [0, 1e26]]`: its determinant elimination takes the
singular early exit at column 0 (both entries below `EPS`) and returns `0`,
while the elimination on its transpose completes and returns `1e13`. -/
def cexA8 : CMatrix :=
  ⟨2, 2, fun i j =>
    if i = 0 then (if j = 0 then 1 / 10 ^ 13 else 10 ^ 13)
    else (if j = 0 then 0 else 10 ^ 26)⟩

/-- A 1 × 1 matrix whose single entry `1234567890123` needs 13 significant
decimal digits, one more than `%.12g` writes. -/
def mBig : CMatrix := ⟨1, 1, fun _ _ => 1234567890123⟩

/-- A 2 × 2 matrix all of whose entries are exactly representable with at
most 12 significant decimal digits. -/
def mW7 : CMatrix :=
  ⟨2, 2, fun i j =>
    if i = 0 then (if j = 0 then 3 / 2 else -2) else (if j = 0 then 0 else 17)⟩

/-! ## Theorems -/

/-- Bounds for the pivot-search fold: starting from an accumulator in
`[i, n)` over a list of candidates in `[i, n)`, the result stays in `[i, n)`. -/
theorem pivotFold_bounds (f : Nat → Nat → ℚ) (i n : Nat) :
    ∀ (l : List Nat) (p : Nat), i ≤ p → p < n → (∀ r ∈ l, i ≤ r ∧ r < n) →
      i ≤ l.foldl (fun piv r => if |f r i| > |f piv i| then r else piv) p ∧
        l.foldl (fun piv r => if |f r i| > |f piv i| then r else piv) p < n
  | [], p, h1, h2, _ => ⟨h1, h2⟩
  | r :: l, p, h1, h2, hl => by
    simp only [List.foldl_cons]
    by_cases hc : |f r i| > |f p i|
    · rw [if_pos hc]
      exact pivotFold_bounds f i n l r (hl r (.head l)).1 (hl r (.head l)).2
        fun x hx => hl x (.tail r hx)
    · rw [if_neg hc]
      exact pivotFold_bounds f i n l p h1 h2 fun x hx => hl x (.tail r hx)

/-- The selected pivot row lies in `[i, n)` whenever `i < n`. -/
theorem findPivot_mem (f : Nat → Nat → ℚ) (i n : Nat) (h : i < n) :
    i ≤ findPivot f i n ∧ findPivot f i n < n := by
  unfold findPivot
  refine pivotFold_bounds f i n _ i le_rfl h fun r hr => ?_
  have := List.mem_range'_1.mp hr
  omega

/-- The determinant loop never writes the input buffer. -/
theorem detLoopS_inp (n : Nat) : ∀ fuel i s, (detLoopS n fuel i s).inp = s.inp
  | 0, _, _ => rfl
  | fuel + 1, i, s => by
    simp only [detLoopS]
    split
    · rfl
    · rw [detLoopS_inp n fuel]
      rfl

/-- The Gauss-Jordan loop never writes the input buffer. -/
theorem invLoopS_inp (n : Nat) : ∀ fuel i s, (invLoopS n fuel i s).inp = s.inp
  | 0, _, _ => rfl
  | fuel + 1, i, s => by
    simp only [invLoopS]
    split
    · rfl
    · rw [invLoopS_inp n fuel]

/-- C9: `matrix_determinant` and `matrix_inverse` do all elimination on a
private copy (`mat`, resp. the augmented buffer `E`): the input buffer
component threaded through both loops is untouched on every path, success
or failure, so every cell of `A` reads the same after the call as before
(the shape fields are `const` and never assigned at all). -/
theorem det_inverse_input_unchanged (a : CMatrix) :
    (detLoopS a.rows a.rows 0 ⟨a.data, a.data, 1, 1⟩).inp = a.data ∧
    (invLoopS a.rows a.rows 0 ⟨a.data, augInit a, false⟩).inp = a.data :=
  ⟨detLoopS_inp a.rows a.rows 0 _, invLoopS_inp a.rows a.rows 0 _⟩

/-- C10: every core operation tolerates a `NULL` matrix argument:
`matrix_add_sub` and `matrix_multiply` return `NULL` when either input is
`NULL`, `matrix_inverse` returns `NULL` on `NULL`, and
`matrix_determinant` returns `0.0` (and prints nothing); none of them
reads a cell of a `NULL` input. -/
theorem null_inputs_handled :
    (∀ b s, matrix_add_sub none b s = none) ∧
    (∀ a s, matrix_add_sub a none s = none) ∧
    (∀ b, matrix_multiply none b = none) ∧
    (∀ a, matrix_multiply a none = none) ∧
    matrix_determinant none = ([], 0) ∧
    matrix_inverse none = none := by
  refine ⟨fun b s => ?_, fun a s => ?_, fun b => ?_, fun a => ?_, rfl, rfl⟩
  · cases b <;> rfl
  · cases a <;> rfl
  · cases b <;> rfl
  · cases a <;> rfl

/-- C4: on non-square input `matrix_determinant` emits the
`NotSquareError` diagnostic on `stderr` and returns the sentinel `0.0`,
and `matrix_inverse` returns `NULL`; on square input the determinant never
emits that diagnostic, so the failure is distinguishable from every
legitimate numeric result. -/
theorem not_square_errors (a : CMatrix) :
    (a.rows ≠ a.cols →
      matrix_determinant (some a) = (["Determinant: matrix is not square"], 0) ∧
      matrix_inverse (some a) = none) ∧
    (a.rows = a.cols → (matrix_determinant (some a)).1 = []) := by
  constructor
  · intro h
    constructor
    · simp [matrix_determinant, h]
    · simp [matrix_inverse, h]
  · intro h
    simp [matrix_determinant, h]

/-- Witness for C4 at the 1 × 2 matrix `mNS` and the square matrix `mGood`. -/
theorem not_square_errors_witness :
    (matrix_determinant (some mNS) = (["Determinant: matrix is not square"], 0) ∧
      matrix_inverse (some mNS) = none) ∧
    (matrix_determinant (some mGood)).1 = [] :=
  ⟨(not_square_errors mNS).1 (by decide), (not_square_errors mGood).2 (by decide)⟩

/-- C5: `matrix_add_sub` fails (`NULL`) unless the two shapes agree, and
otherwise returns the fresh `a.rows × a.cols` matrix of entrywise sums
(`subtract = false`) or differences (`subtract = true`). -/
theorem add_sub_shape_and_entries (a b : CMatrix) (subtract : Bool) :
    (¬(a.rows = b.rows ∧ a.cols = b.cols) →
      matrix_add_sub (some a) (some b) subtract = none) ∧
    (a.rows = b.rows → a.cols = b.cols →
      matrixEqO (matrix_add_sub (some a) (some b) subtract)
        ⟨a.rows, a.cols, fun i j =>
          if subtract then a.data i j - b.data i j else a.data i j + b.data i j⟩) := by
  constructor
  · intro h
    have h' : a.rows ≠ b.rows ∨ a.cols ≠ b.cols := by tauto
    simp [matrix_add_sub, h']
  · intro h1 h2
    have h' : ¬(a.rows ≠ b.rows ∨ a.cols ≠ b.cols) := by tauto
    simp only [matrix_add_sub, if_neg h', matrixEqO, matrixEq]
    refine ⟨trivial, trivial, fun i hi j hj => ?_⟩
    have hi' : i < a.rows := hi
    have hj' : j < a.cols := hj
    simp only [if_pos (And.intro hi' hj')]
    cases subtract <;> simp [sub_eq_add_neg]

/-- Witness for C5: a shape mismatch and two matching 2 × 2 additions. -/
theorem add_sub_shape_and_entries_witness :
    matrix_add_sub (some mNS) (some mGood) false = none ∧
    matrixEqO (matrix_add_sub (some mTr) (some mB2) true)
      ⟨mTr.rows, mTr.cols, fun i j =>
        if true then mTr.data i j - mB2.data i j else mTr.data i j + mB2.data i j⟩ :=
  ⟨(add_sub_shape_and_entries mNS mGood false).1 (by decide),
    (add_sub_shape_and_entries mTr mB2 true).2 rfl rfl⟩

/-- Composing run prefixes: when the Gauss-Jordan run on `a` reaches column
`i` with buffer `E`, the full loop coincides with the loop restarted at
column `i` from `E`. -/
theorem invLoopS_of_reaches (a : CMatrix) (inp : Nat → Nat → ℚ) :
    ∀ {i : Nat} {E : Nat → Nat → ℚ}, InvReaches a i E → i ≤ a.rows →
      invLoopS a.rows a.rows 0 ⟨inp, augInit a, false⟩ =
        invLoopS a.rows (a.rows - i) i ⟨inp, E, false⟩ := by
  intro i E hr
  induction hr with
  | init => intro _; simp
  | @step i' E' hr' hlt hpiv ih =>
    intro _
    rw [ih (Nat.le_of_lt hlt)]
    have hf : a.rows - i' = (a.rows - (i' + 1)) + 1 := by omega
    rw [hf]
    simp only [invLoopS]
    rw [if_neg hpiv]

/-- C3: whenever the Gauss-Jordan run on a square matrix reaches a column
whose remaining entries (rows `r ∈ [i, n)`) all have magnitude below
`EPS`, the selected pivot is below `EPS` too, so `matrix_inverse` takes the
singular early exit and returns `NULL` — no result matrix (zero-filled,
partial or otherwise) is ever produced. -/
theorem inverse_singular_returns_none (a : CMatrix) (hsq : a.rows = a.cols)
    {i : Nat} {E : Nat → Nat → ℚ} (hr : InvReaches a i E) (hi : i < a.rows)
    (htiny : ∀ r < a.rows, i ≤ r → |E r i| < EPS) :
    matrix_inverse (some a) = none := by
  have hrun := invLoopS_of_reaches a a.data hr (Nat.le_of_lt hi)
  have hfp := findPivot_mem E i a.rows hi
  have hlt : |E (findPivot E i a.rows) i| < EPS := htiny _ hfp.2 hfp.1
  have hsq' : ¬ a.rows ≠ a.cols := fun h => h hsq
  have hf : a.rows - i = (a.rows - (i + 1)) + 1 := by omega
  simp only [matrix_inverse, if_neg hsq', hrun, hf, invLoopS, if_pos hlt, if_true]

/-- Witness for C3 at the singular matrix `[[1, 2], [2, 4]]`: the run
reaches column 1 where the single remaining entry is exactly `0`. -/
theorem inverse_singular_returns_none_witness :
    matrix_inverse (some mSing) = none :=
  inverse_singular_returns_none mSing rfl
    (InvReaches.step InvReaches.init (by decide) (by decide)) (by decide) (by decide)

/-- C1 (counterexample): `cexA1 = [[1e-12, 1], [99e-14, 1]]` is square and
invertible in the claim's sense — the Gauss-Jordan run selects pivots
`1e-12` and `1`, both of magnitude at least `1e-12`, so the run completes
and `matrix_inverse` returns a matrix — yet
`multiply(A, inverse(A))` has `99/100` at cell `(1, 0)` where the identity
matrix has `0`: the product is not the identity within any tolerance
(the factor `99e-14` was silently skipped by the `fabs(factor) < EPS`
test during elimination). -/
theorem inverse_product_not_identity_cex :
    cexA1.rows = cexA1.cols ∧
    (matrix_inverse (some cexA1)).isSome = true ∧
    (matrix_multiply (some cexA1) (matrix_inverse (some cexA1))).map
      (fun m => m.data 1 0) = some (99 / 100) ∧
    (identityMatrix 2).data 1 0 = 0 ∧
    ¬ matrixEqO (matrix_multiply (some cexA1) (matrix_inverse (some cexA1)))
        (identityMatrix 2) := by
  decide

/-- C8 (counterexample): for `cexA8 = [[1e-13, 1e13], [0, 1e26]]` the
determinant elimination takes the singular cutoff at column 0 and returns
`0.0`, while on the transpose it completes and returns `1e13`; the two
results are not within `1e-9` relative tolerance of each other. -/
theorem det_transpose_cex :
    cexA8.rows = cexA8.cols ∧
    (matrix_determinant (some cexA8)).2 = 0 ∧
    (matrix_determinant (some (matrix_transpose cexA8))).2 = 10 ^ 13 ∧
    ¬ (|(matrix_determinant (some (matrix_transpose cexA8))).2 -
          (matrix_determinant (some cexA8)).2| ≤
        1 / 10 ^ 9 * |(matrix_determinant (some (matrix_transpose cexA8))).2|) := by
  decide

/-- The pivot search stays at its starting row when no candidate strictly
beats it. -/
theorem pivotFold_stay (f : Nat → Nat → ℚ) (i : Nat) :
    ∀ l : List Nat, (∀ r ∈ l, ¬ |f r i| > |f i i|) →
      l.foldl (fun piv r => if |f r i| > |f piv i| then r else piv) i = i
  | [], _ => rfl
  | r :: l, h => by
    simp only [List.foldl_cons]
    rw [if_neg (h r (.head l))]
    exact pivotFold_stay f i l fun x hx => h x (.tail r hx)

/-- The selected pivot row is `i` itself when no row below strictly beats
it in magnitude. -/
theorem findPivot_eq_self (f : Nat → Nat → ℚ) (i n : Nat)
    (h : ∀ r, i ≤ r → r < n → ¬ |f r i| > |f i i|) :
    findPivot f i n = i := by
  unfold findPivot
  refine pivotFold_stay f i _ fun r hr => ?_
  have := List.mem_range'_1.mp hr
  exact h r (by omega) (by omega)

/-- A fold leaves its accumulator unchanged when every step does. -/
theorem foldl_fixed {α : Type} (g : α → Nat → α) :
    ∀ (l : List Nat) (x : α), (∀ r ∈ l, g x r = x) → l.foldl g x = x
  | [], _, _ => rfl
  | r :: l, x, h => by
    simp only [List.foldl_cons, h r (.head l)]
    exact foldl_fixed g l x fun y hy => h y (.tail r hy)

/-- Swapping a row with itself changes nothing. -/
theorem rowSwapW_self (f : Nat → Nat → ℚ) (i w : Nat) : rowSwapW f i i w = f := by
  funext r c
  by_cases h1 : c < w
  · by_cases h2 : r = i
    · subst h2; simp [rowSwapW, h1]
    · simp [rowSwapW, h1, h2]
  · simp [rowSwapW, h1]

/-- A determinant elimination step with factor `0` changes nothing. -/
theorem elimRowDet_zero (n i : Nat) (m : Nat → Nat → ℚ) (r : Nat) (h : m r i = 0) :
    elimRowDet n i m r = m := by
  funext r' c
  unfold elimRowDet
  split
  · rw [h]; simp
  · rfl

/-- The determinant elimination of column `i` changes nothing when that
column is already zero below the diagonal. -/
theorem elimBelow_fixed (n i : Nat) (m : Nat → Nat → ℚ)
    (h : ∀ r, i < r → r < n → m r i = 0) : elimBelow n i m = m := by
  unfold elimBelow
  refine foldl_fixed _ _ _ fun r hr => ?_
  have := List.mem_range'_1.mp hr
  exact elimRowDet_zero n i m r (h r (by omega) (by omega))

/-- A Gauss-Jordan elimination step on the pivot row or with a factor of
magnitude below `EPS` changes nothing (the `continue` branches). -/
theorem elimRowInv_skip (n i : Nat) (E : Nat → Nat → ℚ) (r : Nat)
    (h : r = i ∨ |E r i| < EPS) : elimRowInv n i E r = E := by
  unfold elimRowInv
  rcases h with h | h
  · rw [if_pos h]
  · by_cases h2 : r = i
    · rw [if_pos h2]
    · rw [if_neg h2, if_pos h]

/-- The Gauss-Jordan elimination of column `i` changes nothing when every
other row's factor has magnitude below `EPS`. -/
theorem elimOthers_fixed (n i : Nat) (E : Nat → Nat → ℚ)
    (h : ∀ r, r < n → r ≠ i → |E r i| < EPS) : elimOthers n i E = E := by
  unfold elimOthers
  refine foldl_fixed _ _ _ fun r hr => ?_
  have hrn := List.mem_range.mp hr
  by_cases h2 : r = i
  · exact elimRowInv_skip n i E r (Or.inl h2)
  · exact elimRowInv_skip n i E r (Or.inr (h r hrn h2))

/-- Swap-and-normalise at the pivot row itself changes nothing when the
pivot value is already `1`. -/
theorem invSwapNorm_self_one (n i : Nat) (E : Nat → Nat → ℚ) (h : E i i = 1) :
    invSwapNorm n i E i = E := by
  funext r c
  simp only [invSwapNorm, rowSwapW_self]
  split
  · rw [h, div_one]
  · rfl

/-- Diagonal cells of the identity matrix. -/
theorem idD_diag (n i : Nat) (h : i < n) : (identityMatrix n).data i i = 1 := by
  simp [identityMatrix, h]

/-- Off-diagonal cells of the identity matrix. -/
theorem idD_off (n r c : Nat) (h : r ≠ c) : (identityMatrix n).data r c = 0 := by
  simp [identityMatrix, h]

/-- `|1| < EPS` is false. -/
theorem one_not_lt_EPS : ¬ |(1 : ℚ)| < EPS := by norm_num [EPS]

/-- On the identity matrix the determinant loop is a fixpoint: the pivot is
always the diagonal `1`, no swap happens, and every elimination factor is
`0`. -/
theorem detLoopS_id (n : Nat) :
    ∀ fuel i inp d sg, i + fuel ≤ n →
      detLoopS n fuel i ⟨inp, (identityMatrix n).data, d, sg⟩ =
        ⟨inp, (identityMatrix n).data, d, sg⟩
  | 0, i, inp, d, sg, _ => rfl
  | fuel + 1, i, inp, d, sg, h => by
    have hi : i < n := by omega
    have hfp : findPivot (identityMatrix n).data i n = i := by
      refine findPivot_eq_self _ i n fun r hr hrn => ?_
      rcases eq_or_ne r i with rfl | hne
      · simp
      · rw [idD_off n r i hne, idD_diag n i hi]
        simp [abs_nonneg]
    have hpv : ¬ |(identityMatrix n).data i i| < EPS := by
      rw [idD_diag n i hi]; exact one_not_lt_EPS
    have hel : elimBelow n i (identityMatrix n).data = (identityMatrix n).data :=
      elimBelow_fixed n i _ fun r hir _ => idD_off n r i (by omega)
    simp only [detLoopS, hfp, hpv, if_false, detStep, rowSwapW_self, hel,
      idD_diag n i hi, mul_one, if_pos rfl]
    exact detLoopS_id n fuel (i + 1) inp d sg (by omega)

/-- On the identity matrix the Gauss-Jordan loop is a fixpoint: the pivot
is always the diagonal `1`, normalisation divides by `1`, and every other
row's factor is `0` (skipped). -/
theorem invLoopS_id (n : Nat) :
    ∀ fuel i inp, i + fuel ≤ n →
      invLoopS n fuel i ⟨inp, augInit (identityMatrix n), false⟩ =
        ⟨inp, augInit (identityMatrix n), false⟩
  | 0, i, inp, _ => rfl
  | fuel + 1, i, inp, h => by
    have hi : i < n := by omega
    have haug : ∀ r c, r < n → c < n → augInit (identityMatrix n) r c =
        (identityMatrix n).data r c := by
      intro r c hr hc
      simp only [augInit, identityMatrix]
      rw [if_pos ⟨hr, hc⟩]
    have hfp : findPivot (augInit (identityMatrix n)) i n = i := by
      refine findPivot_eq_self _ i n fun r hr hrn => ?_
      rw [haug r i hrn hi, haug i i hi hi]
      rcases eq_or_ne r i with rfl | hne
      · simp
      · rw [idD_off n r i hne, idD_diag n i hi]
        simp [abs_nonneg]
    have hpv : ¬ |augInit (identityMatrix n) i i| < EPS := by
      rw [haug i i hi hi, idD_diag n i hi]; exact one_not_lt_EPS
    have hnorm : invSwapNorm n i (augInit (identityMatrix n)) i =
        augInit (identityMatrix n) := by
      refine invSwapNorm_self_one n i _ ?_
      rw [haug i i hi hi, idD_diag n i hi]
    have hel : elimOthers n i (augInit (identityMatrix n)) =
        augInit (identityMatrix n) := by
      refine elimOthers_fixed n i _ fun r hr hne => ?_
      rw [haug r i hr hi, idD_off n r i hne]
      simp [EPS]
    simp only [invLoopS, hfp, hpv, if_false, invStep, hnorm, hel]
    exact invLoopS_id n fuel (i + 1) inp (by omega)

/-- C6: the `n × n` identity matrix (`n ≥ 1`) has determinant exactly
`1.0`, and `matrix_inverse` on it succeeds and returns the identity
matrix. -/
theorem identity_det_one_inverse_identity (n : Nat) (h : 1 ≤ n) :
    (matrix_determinant (some (identityMatrix n))).2 = 1 ∧
    matrixEqO (matrix_inverse (some (identityMatrix n))) (identityMatrix n) := by
  have hsq : ¬ (identityMatrix n).rows ≠ (identityMatrix n).cols := fun hc => hc rfl
  constructor
  · simp only [matrix_determinant, if_neg hsq]
    rw [show (identityMatrix n).rows = n from rfl,
      detLoopS_id n n 0 (identityMatrix n).data 1 1 (by omega)]
    simp
  · simp only [matrix_inverse, if_neg hsq]
    rw [show (identityMatrix n).rows = n from rfl,
      invLoopS_id n n 0 (identityMatrix n).data (by omega)]
    simp only [Bool.false_eq_true, if_false, matrixEqO, matrixEq]
    refine ⟨rfl, rfl, fun i hi j hj => ?_⟩
    have hi' : i < n := hi
    have hj' : j < n := hj
    simp only [if_pos (And.intro hi' hj')]
    have h1 : ¬ (i < n ∧ n + j < n) := by omega
    have h2 : i < n ∧ n + j < 2 * n := by omega
    simp only [augInit, identityMatrix]
    rw [if_neg h1, if_pos h2]
    rcases eq_or_ne i j with rfl | hne
    · rw [if_pos rfl, if_pos (And.intro hi' hj'), if_pos rfl]
    · rw [if_neg (show ¬ n + j = n + i by omega), if_pos (And.intro hi' hj'),
        if_neg hne]

/-- Witness for C6 at `n = 2`. -/
theorem identity_det_one_inverse_identity_witness :
    (matrix_determinant (some (identityMatrix 2))).2 = 1 ∧
    matrixEqO (matrix_inverse (some (identityMatrix 2))) (identityMatrix 2) :=
  identity_det_one_inverse_identity 2 (by decide)

/-- The determinant loop's accumulators against the spec's pivot list: on
the singular early exit the final `det` is `0`; on completion the final
`det` is the starting `det` times the product of the pivots, and the final
`sign` is the starting `sign` times `(-1)` to the number of performed
swaps. -/
theorem detLoopS_spec (n : Nat) :
    ∀ fuel i s,
      (match detPivotsSpec n fuel i s.mat with
       | none => (detLoopS n fuel i s).det = 0
       | some (ps, k) =>
          (detLoopS n fuel i s).det = s.det * ps.prod ∧
          (detLoopS n fuel i s).sign = s.sign * (-1) ^ k)
  | 0, i, s => by simp [detPivotsSpec, detLoopS]
  | fuel + 1, i, s => by
    simp only [detPivotsSpec, detLoopS]
    by_cases hp : |s.mat (findPivot s.mat i n) i| < EPS
    · rw [if_pos hp, if_pos hp]
    · rw [if_neg hp, if_neg hp]
      have ih := detLoopS_spec n fuel (i + 1) (detStep n i s (findPivot s.mat i n))
      dsimp only [detStep] at ih ⊢
      cases hspec : detPivotsSpec n fuel (i + 1)
          (elimBelow n i (rowSwapW s.mat i (findPivot s.mat i n) n)) with
      | none =>
        rw [hspec] at ih
        exact ih
      | some pk =>
        obtain ⟨ps, k⟩ := pk
        rw [hspec] at ih
        obtain ⟨ih1, ih2⟩ := ih
        refine ⟨?_, ?_⟩
        · rw [ih1, List.prod_cons]
          ring
        · by_cases hpi : findPivot s.mat i n = i
          · simp only [if_pos hpi] at ih2 ⊢
            exact ih2
          · simp only [if_neg hpi] at ih2 ⊢
            rw [ih2, pow_succ]
            ring

/-- C2: on every square matrix, `matrix_determinant` returns exactly what
the spec describes: the accumulated product of the selected pivots times a
sign flipping once per performed swap, and `0.0` outright when a selected
pivot's magnitude falls below `1e-12`. -/
theorem determinant_eq_pivot_product_spec (a : CMatrix) (hsq : a.rows = a.cols) :
    (matrix_determinant (some a)).2 = matrix_determinant_spec a := by
  have h := detLoopS_spec a.rows a.rows 0 ⟨a.data, a.data, 1, 1⟩
  dsimp only at h
  have hns : ¬ a.rows ≠ a.cols := fun hc => hc hsq
  simp only [matrix_determinant, if_neg hns, matrix_determinant_spec]
  cases hspec : detPivotsSpec a.rows a.rows 0 a.data with
  | none =>
    rw [hspec] at h
    simp [h]
  | some pk =>
    obtain ⟨ps, k⟩ := pk
    rw [hspec] at h
    rw [h.1, h.2]
    push_cast
    ring

/-- Witness for C2 at the spec's concrete scenario `[[4, 3], [6, 3]]`,
whose determinant is `-6`. -/
theorem determinant_eq_pivot_product_spec_witness :
    (matrix_determinant (some mGood)).2 = matrix_determinant_spec mGood ∧
    (matrix_determinant (some mGood)).2 = -6 :=
  ⟨determinant_eq_pivot_product_spec mGood rfl, by decide⟩

/-- C7 (counterexample): the 13-significant-digit entry `1234567890123`
comes back from the `%.12g` save/load round trip as `1234567890120`: the
round trip is not the identity, and entries are not preserved exactly. -/
theorem save_load_not_exact_cex :
    loadEntry (matrix_save_txt mBig) 0 0 = some 1234567890120 ∧
    mBig.data 0 0 = 1234567890123 ∧ ((1234567890120 : ℚ) ≠ 1234567890123) := by
  decide

/-- Length of the row-major token stream written by the save routine. -/
theorem saveVals_length (g : Nat → Nat → ℚ) :
    ∀ R C : Nat,
      ((List.range R).flatMap fun i => (List.range C).map fun j => g i j).length = R * C
  | 0, _ => by simp
  | R + 1, C => by
    rw [List.range_succ, List.flatMap_append, List.length_append, saveVals_length g R C]
    simp [Nat.succ_mul]

/-- Row-major indexing into the token stream: token `i * C + j` is cell
`(i, j)`. -/
theorem saveVals_getD (g : Nat → Nat → ℚ) :
    ∀ R C i j : Nat, i < R → j < C →
      ((List.range R).flatMap fun i => (List.range C).map fun j => g i j).getD
        (i * C + j) 0 = g i j
  | 0, _, i, _, hi, _ => absurd hi (Nat.not_lt_zero i)
  | R + 1, C, i, j, hi, hj => by
    rw [List.range_succ, List.flatMap_append]
    by_cases hiR : i < R
    · rw [List.getD_append _ _ _ _ (by
        rw [saveVals_length g R C]
        calc i * C + j < i * C + C := by omega
          _ = (i + 1) * C := by ring
          _ ≤ R * C := Nat.mul_le_mul_right C hiR)]
      exact saveVals_getD g R C i j hiR hj
    · have hiR' : i = R := by omega
      subst hiR'
      rw [List.getD_append_right _ _ _ _ (by
        rw [saveVals_length g i C]; exact Nat.le_add_right _ _)]
      rw [saveVals_length g i C]
      have hsub : i * C + j - i * C = j := by omega
      rw [hsub]
      simp only [List.flatMap_cons, List.flatMap_nil, List.append_nil]
      rw [List.getD_eq_getElem?_getD, List.getElem?_map, List.getElem?_range hj]
      rfl

/-- C7 (amended): `load(save(M))` is the identity on every matrix whose
entries are all fixed by rounding to 12 significant decimal digits (the
precision `%.12g` writes); the counterexample `mBig` shows it is not the
identity in general — a 13th significant digit is lost. -/
theorem save_load_roundtrip_g12 (m : CMatrix)
    (h : ∀ i < m.rows, ∀ j < m.cols, g12 (m.data i j) = m.data i j) :
    matrixEqO (matrix_load_txt (matrix_save_txt m)) m := by
  have hlen : ((List.range m.rows).flatMap fun i =>
      (List.range m.cols).map fun j => g12 (matrix_get m i j)).length =
      m.rows * m.cols := saveVals_length _ _ _
  simp only [matrix_load_txt, matrix_save_txt]
  rw [if_pos (le_of_eq hlen.symm)]
  simp only [matrixEqO, matrixEq]
  refine ⟨trivial, trivial, fun i hi j hj => ?_⟩
  have hi' : i < m.rows := hi
  have hj' : j < m.cols := hj
  simp only [if_pos (And.intro hi' hj')]
  rw [saveVals_getD _ _ _ _ _ hi' hj']
  exact h i hi' j hj'

/-- Witness for the amended C7 at a matrix of short-decimal entries. -/
theorem save_load_roundtrip_g12_witness :
    matrixEqO (matrix_load_txt (matrix_save_txt mW7)) mW7 :=
  save_load_roundtrip_g12 mW7 (by decide)

/-- Cells of a row swap at rows other than `i` and `p`. -/
theorem rowSwapW_ne (f : Nat → Nat → ℚ) (i p w r c : Nat) (h1 : r ≠ i) (h2 : r ≠ p) :
    rowSwapW f i p w r c = f r c := by
  simp [rowSwapW, h1, h2]

/-- Row `i` of a row swap holds the old row `p`. -/
theorem rowSwapW_fst (f : Nat → Nat → ℚ) (i p w c : Nat) (h : c < w) :
    rowSwapW f i p w i c = f p c := by
  unfold rowSwapW
  rw [if_pos h, if_pos rfl]

/-- Row `p ≠ i` of a row swap holds the old row `i`. -/
theorem rowSwapW_snd (f : Nat → Nat → ℚ) (i p w c : Nat) (h : c < w) (hne : p ≠ i) :
    rowSwapW f i p w p c = f i c := by
  unfold rowSwapW
  rw [if_pos h, if_neg hne, if_pos rfl]

/-- Cells of the embedded Mathlib matrix. -/
theorem toMat_apply (n : Nat) (f : Nat → Nat → ℚ) (r c : Fin n) :
    toMat n f r c = f r c := rfl

/-- A determinant elimination step only writes its own row. -/
theorem elimRowDet_other (n i : Nat) (m : Nat → Nat → ℚ) (r r' c : Nat)
    (h : r' ≠ r) : elimRowDet n i m r r' c = m r' c := by
  unfold elimRowDet
  exact if_neg fun hh => h hh.1

/-- Pointwise description of the determinant's sequential elimination fold:
each row in the processed range is updated exactly once, reading values the
fold has not yet changed (row `i` is never written, and each row is written
only at its own step). -/
theorem elimBelowAux_apply (n i : Nat) :
    ∀ (len s : Nat) (m : Nat → Nat → ℚ), i < s →
      ∀ r c, (List.range' s len).foldl (elimRowDet n i) m r c =
        if s ≤ r ∧ r < s + len ∧ i ≤ c ∧ c < n
        then m r c - m r i / m i i * m i c else m r c
  | 0, s, m, _, r, c => by
    rw [if_neg (by omega)]
    rfl
  | len + 1, s, m, his, r, c => by
    rw [List.range'_succ, List.foldl_cons,
      elimBelowAux_apply n i len (s + 1) (elimRowDet n i m s) (by omega) r c]
    by_cases hrs : r = s
    · subst hrs
      rw [if_neg (by omega)]
      unfold elimRowDet
      by_cases hc : i ≤ c ∧ c < n
      · rw [if_pos ⟨rfl, hc.1, hc.2⟩, if_pos ⟨le_rfl, by omega, hc.1, hc.2⟩]
      · rw [if_neg (by tauto), if_neg (by tauto)]
    · rw [elimRowDet_other n i m s r c hrs, elimRowDet_other n i m s r i hrs,
        elimRowDet_other n i m s i i (by omega), elimRowDet_other n i m s i c (by omega)]
      by_cases hcond : s ≤ r ∧ r < s + (len + 1) ∧ i ≤ c ∧ c < n
      · rw [if_pos ⟨by omega, by omega, hcond.2.2.1, hcond.2.2.2⟩, if_pos hcond]
      · rw [if_neg (by
          intro hh
          obtain ⟨h1, h2, h3, h4⟩ := hh
          exact hcond ⟨by omega, by omega, h3, h4⟩), if_neg hcond]

/-- Pointwise description of `elimBelow`. -/
theorem elimBelow_apply (n i : Nat) (m : Nat → Nat → ℚ) (r c : Nat) :
    elimBelow n i m r c =
      if i + 1 ≤ r ∧ r < n ∧ i ≤ c ∧ c < n
      then m r c - m r i / m i i * m i c else m r c := by
  unfold elimBelow
  rw [elimBelowAux_apply n i (n - (i + 1)) (i + 1) m (by omega) r c]
  have hiff : (i + 1 ≤ r ∧ r < i + 1 + (n - (i + 1)) ∧ i ≤ c ∧ c < n) ↔
      (i + 1 ≤ r ∧ r < n ∧ i ≤ c ∧ c < n) := by omega
  rw [if_congr hiff rfl rfl]

/-- The sequential elimination below the pivot preserves the determinant:
each step adds a multiple of row `i` to a distinct later row.  Row `i` must
be zero left of column `i`, so that the partial-row update coincides with a
whole-row update. -/
theorem det_elimBelowAux (n i : Nat) (hi : i < n) :
    ∀ (len s : Nat) (m : Nat → Nat → ℚ), i < s → s + len ≤ n →
      (∀ c, c < i → m i c = 0) →
      (toMat n ((List.range' s len).foldl (elimRowDet n i) m)).det = (toMat n m).det
  | 0, _, _, _, _, _ => rfl
  | len + 1, s, m, his, hlen, hrow => by
    have hs : s < n := by omega
    rw [List.range'_succ, List.foldl_cons,
      det_elimBelowAux n i hi len (s + 1) (elimRowDet n i m s) (by omega) (by omega)
        (fun c hc => by
          rw [elimRowDet_other n i m s i c (by omega)]
          exact hrow c hc)]
    have heq : toMat n (elimRowDet n i m s) =
        Matrix.updateRow (toMat n m) ⟨s, hs⟩
          (toMat n m ⟨s, hs⟩ + (-(m s i / m i i)) • toMat n m ⟨i, hi⟩) := by
      ext r c
      by_cases hrs : (r : Nat) = s
      · have hr : r = ⟨s, hs⟩ := Fin.ext hrs
        subst hr
        rw [Matrix.updateRow_self]
        simp only [Pi.add_apply, Pi.smul_apply, smul_eq_mul, toMat_apply]
        unfold elimRowDet
        by_cases hic : i ≤ (c : Nat)
        · rw [if_pos ⟨rfl, hic, c.isLt⟩]
          ring
        · rw [if_neg (by tauto), hrow c (by omega)]
          ring
      · rw [Matrix.updateRow_ne (Fin.ne_of_val_ne hrs), toMat_apply, toMat_apply,
          elimRowDet_other n i m s r c hrs]
    rw [heq, Matrix.det_updateRow_add_smul_self (toMat n m)
      (Fin.ne_of_val_ne (show s ≠ i by omega)) (-(m s i / m i i))]

/-- `elimBelow` preserves the determinant. -/
theorem det_elimBelow (n i : Nat) (hi : i < n) (m : Nat → Nat → ℚ)
    (hrow : ∀ c, c < i → m i c = 0) :
    (toMat n (elimBelow n i m)).det = (toMat n m).det := by
  unfold elimBelow
  exact det_elimBelowAux n i hi (n - (i + 1)) (i + 1) m (by omega) (by omega) hrow

/-- Swapping two distinct rows negates the determinant. -/
theorem det_rowSwapW (n : Nat) (m : Nat → Nat → ℚ) (i p : Nat)
    (hi : i < n) (hp : p < n) (hne : i ≠ p) :
    (toMat n (rowSwapW m i p n)).det = -(toMat n m).det := by
  have heq : toMat n (rowSwapW m i p n) =
      (toMat n m).submatrix (Equiv.swap ⟨i, hi⟩ ⟨p, hp⟩) id := by
    ext r c
    simp only [Matrix.submatrix_apply, id_eq]
    by_cases hri : (r : Nat) = i
    · have hr : r = ⟨i, hi⟩ := Fin.ext hri
      subst hr
      rw [Equiv.swap_apply_left, toMat_apply, toMat_apply,
        rowSwapW_fst m i p n c c.isLt]
    · by_cases hrp : (r : Nat) = p
      · have hr : r = ⟨p, hp⟩ := Fin.ext hrp
        subst hr
        rw [Equiv.swap_apply_right, toMat_apply, toMat_apply,
          rowSwapW_snd m i p n c c.isLt (by omega)]
      · rw [Equiv.swap_apply_of_ne_of_ne (Fin.ne_of_val_ne hri) (Fin.ne_of_val_ne hrp),
          toMat_apply, toMat_apply, rowSwapW_ne m i p n r c hri hrp]
  rw [heq, Matrix.det_permute, Equiv.Perm.sign_swap
    (Fin.ne_of_val_ne (show i ≠ p from hne))]
  simp

/-- Main induction for determinant runs that complete without the singular
cutoff.  Conjuncts: (1) the sign-weighted determinant of the working matrix
is invariant; (2) the final `det` is the starting `det` times the product
of the final diagonal over the remaining columns; (3) rows above `i` are
never written again; (4) given cleared processed columns, the final matrix
is upper triangular. -/
theorem detLoopS_correct (n : Nat) :
    ∀ fuel i s, i + fuel = n →
      detCompletes n fuel i s.mat = true →
      (∀ c r, c < i → c < r → r < n → s.mat r c = 0) →
      ((toMat n (detLoopS n fuel i s).mat).det * ((detLoopS n fuel i s).sign : ℚ)
          = (toMat n s.mat).det * (s.sign : ℚ)) ∧
      ((detLoopS n fuel i s).det
          = s.det * ∏ j ∈ Finset.Ico i n, (detLoopS n fuel i s).mat j j) ∧
      (∀ r c, r < i → (detLoopS n fuel i s).mat r c = s.mat r c) ∧
      (∀ c r, c < n → c < r → r < n → (detLoopS n fuel i s).mat r c = 0)
  | 0, i, s, hin, _, hI1 => by
    have hin' : i = n := by omega
    subst hin'
    refine ⟨rfl, ?_, fun _ _ _ => rfl, fun c r hc hcr hr => hI1 c r hc hcr hr⟩
    rw [Finset.Ico_self, Finset.prod_empty, mul_one]
    rfl
  | fuel + 1, i, s, hin, hcomp, hI1 => by
    have hi : i < n := by omega
    simp only [detCompletes] at hcomp
    by_cases hp : |s.mat (findPivot s.mat i n) i| < EPS
    · rw [if_pos hp] at hcomp
      exact absurd hcomp (by simp)
    · rw [if_neg hp] at hcomp
      simp only [detLoopS, if_neg hp]
      dsimp only [detStep]
      obtain ⟨hple, hplt⟩ := findPivot_mem s.mat i n hi
      have hm1ii : rowSwapW s.mat i (findPivot s.mat i n) n i i
          = s.mat (findPivot s.mat i n) i := rowSwapW_fst s.mat i _ n i hi
      have hpne : s.mat (findPivot s.mat i n) i ≠ 0 := by
        intro h0
        rw [h0] at hp
        exact hp (by norm_num [EPS])
      have hm1I1 : ∀ c r, c < i → c < r → r < n →
          rowSwapW s.mat i (findPivot s.mat i n) n r c = 0 := by
        intro c r hc hcr hr
        by_cases hri : r = i
        · rw [hri, rowSwapW_fst s.mat i _ n c (by omega)]
          exact hI1 c _ hc (by omega) hplt
        · by_cases hrp : r = findPivot s.mat i n
          · rw [hrp, rowSwapW_snd s.mat i _ n c (by omega)
              (fun hh => hri (hrp.trans hh))]
            exact hI1 c i hc (by omega) hi
          · rw [rowSwapW_ne s.mat i _ n r c hri hrp]
            exact hI1 c r hc hcr hr
      have hm1rowi : ∀ c, c < i →
          rowSwapW s.mat i (findPivot s.mat i n) n i c = 0 :=
        fun c hc => hm1I1 c i hc hc hi
      have hI1' : ∀ c r, c < i + 1 → c < r → r < n →
          elimBelow n i (rowSwapW s.mat i (findPivot s.mat i n) n) r c = 0 := by
        intro c r hc hcr hr
        rcases Nat.lt_or_ge c i with hci | hci
        · rw [elimBelow_apply, if_neg (by omega)]
          exact hm1I1 c r hci hcr hr
        · have hcieq : c = i := by omega
          subst hcieq
          rw [elimBelow_apply, if_pos ⟨by omega, hr, le_rfl, hi⟩, hm1ii,
            div_mul_cancel₀ _ hpne, sub_self]
      have IH := detLoopS_correct n fuel (i + 1) (detStep n i s (findPivot s.mat i n))
        (by omega) (by dsimp only [detStep]; exact hcomp)
        (by dsimp only [detStep]; exact hI1')
      obtain ⟨IH1, IH2, IH3, IH4⟩ := IH
      dsimp only [detStep] at IH1 IH2 IH3 IH4
      have hdetm1 : (toMat n (elimBelow n i (rowSwapW s.mat i (findPivot s.mat i n) n))).det
          = (toMat n (rowSwapW s.mat i (findPivot s.mat i n) n)).det :=
        det_elimBelow n i hi _ hm1rowi
      refine ⟨?_, ?_, ?_, fun c r hc hcr hr => IH4 c r hc hcr hr⟩
      · rw [IH1, hdetm1]
        by_cases hpi : findPivot s.mat i n = i
        · rw [if_pos hpi, hpi, rowSwapW_self]
        · rw [if_neg hpi,
            det_rowSwapW n s.mat i (findPivot s.mat i n) hi hplt (fun hh => hpi hh.symm)]
          push_cast
          ring
      · rw [IH2, Finset.prod_eq_prod_Ico_succ_bot hi]
        have hfii : (detLoopS n fuel (i + 1)
            ⟨s.inp, elimBelow n i (rowSwapW s.mat i (findPivot s.mat i n) n),
              s.det * rowSwapW s.mat i (findPivot s.mat i n) n i i,
              if findPivot s.mat i n = i then s.sign else -s.sign⟩).mat i i
            = rowSwapW s.mat i (findPivot s.mat i n) n i i := by
          rw [IH3 i i (by omega), elimBelow_apply, if_neg (by omega)]
        rw [hfii]
        ring
      · intro r c hr
        rw [IH3 r c (by omega), elimBelow_apply, if_neg (by omega),
          rowSwapW_ne s.mat i _ n r c (by omega) (by omega)]

/-- On a square matrix whose elimination completes without the singular
cutoff, `matrix_determinant` returns the exact determinant of the input. -/
theorem matrix_determinant_correct (a : CMatrix) (hsq : a.rows = a.cols)
    (hc : detCompletes a.rows a.rows 0 a.data = true) :
    (matrix_determinant (some a)).2 = (toMat a.rows a.data).det := by
  have hns : ¬ a.rows ≠ a.cols := fun hcc => hcc hsq
  simp only [matrix_determinant, if_neg hns]
  obtain ⟨H1, H2, -, H4⟩ := detLoopS_correct a.rows a.rows 0 ⟨a.data, a.data, 1, 1⟩
    (by omega) hc (fun c r hc' _ _ => absurd hc' (Nat.not_lt_zero c))
  dsimp only at H1 H2 H4
  generalize hF : detLoopS a.rows a.rows 0 ⟨a.data, a.data, 1, 1⟩ = F at H1 H2 H4 ⊢
  have htri : (toMat a.rows F.mat).BlockTriangular id :=
    fun x y hxy => H4 y x y.isLt hxy x.isLt
  rw [H2, one_mul]
  have hprod : ∏ j ∈ Finset.Ico 0 a.rows, F.mat j j = (toMat a.rows F.mat).det := by
    rw [Matrix.det_of_upperTriangular htri, ← Finset.range_eq_Ico,
      ← Fin.prod_univ_eq_prod_range (fun j => F.mat j j) a.rows]
    rfl
  rw [hprod, H1]
  simp

/-- The embedded transpose of a square matrix is the Mathlib transpose. -/
theorem toMat_transpose (n : Nat) (d : Nat → Nat → ℚ) :
    toMat n (matrix_transpose ⟨n, n, d⟩).data = (toMat n d).transpose := by
  ext i j
  simp only [toMat_apply, Matrix.transpose_apply, matrix_transpose]
  exact if_pos ⟨i.isLt, j.isLt⟩

/-- C8 (amended): for every square matrix on which the determinant
elimination completes without the singular cutoff — on the matrix and on
its transpose — `determinant(transpose(A))` equals `determinant(A)`
exactly; the counterexample `cexA8` shows the claim fails when a cutoff
fires on one side only. -/
theorem det_transpose_eq_when_completes (a : CMatrix) (hsq : a.rows = a.cols)
    (h1 : detCompletes a.rows a.rows 0 a.data = true)
    (h2 : detCompletes a.rows a.rows 0 (matrix_transpose a).data = true) :
    (matrix_determinant (some (matrix_transpose a))).2 =
      (matrix_determinant (some a)).2 := by
  obtain ⟨R, C, d⟩ := a
  dsimp only at hsq h1 h2
  subst hsq
  rw [matrix_determinant_correct ⟨R, R, d⟩ rfl h1,
    matrix_determinant_correct (matrix_transpose ⟨R, R, d⟩) rfl h2]
  show (toMat R (matrix_transpose ⟨R, R, d⟩).data).det = (toMat R d).det
  rw [toMat_transpose R d, Matrix.det_transpose]

/-- Witness for the amended C8 at `[[1, 2], [3, 4]]`, where both runs
complete. -/
theorem det_transpose_eq_when_completes_witness :
    (matrix_determinant (some (matrix_transpose mTr))).2 =
      (matrix_determinant (some mTr)).2 :=
  det_transpose_eq_when_completes mTr rfl (by decide) (by decide)

/-- A Gauss-Jordan elimination step only writes its own row. -/
theorem elimRowInv_other (n i : Nat) (E : Nat → Nat → ℚ) (r r' c : Nat)
    (h : r' ≠ r) : elimRowInv n i E r r' c = E r' c := by
  unfold elimRowInv
  by_cases h1 : r = i
  · rw [if_pos h1]
  · rw [if_neg h1]
    by_cases h2 : |E r i| < EPS
    · rw [if_pos h2]
    · rw [if_neg h2]
      exact if_neg fun hh => h hh.1

/-- A performed Gauss-Jordan elimination step at its own row. -/
theorem elimRowInv_self (n i : Nat) (E : Nat → Nat → ℚ) (s c : Nat)
    (h1 : s ≠ i) (h2 : ¬ |E s i| < EPS) (h3 : c < 2 * n) :
    elimRowInv n i E s s c = E s c - E s i * E i c := by
  unfold elimRowInv
  rw [if_neg h1, if_neg h2]
  show (if s = s ∧ c < 2 * n then E s c - E s i * E i c else E s c) = _
  rw [if_pos ⟨rfl, h3⟩]

/-- No Gauss-Jordan elimination step ever writes row `i`. -/
theorem elimRowInv_row_i (n i : Nat) (E : Nat → Nat → ℚ) (s c : Nat) :
    elimRowInv n i E s i c = E i c := by
  by_cases h : i = s
  · subst h
    unfold elimRowInv
    rw [if_pos rfl]
  · exact elimRowInv_other n i E s i c h

/-- Pointwise description of the Gauss-Jordan sequential elimination fold:
each row is written at most once (at its own step), from values the fold
has not yet changed; row `i` is never written. -/
theorem elimOthersAux_apply (n i : Nat) :
    ∀ (len s : Nat) (E : Nat → Nat → ℚ) (r c : Nat),
      (List.range' s len).foldl (elimRowInv n i) E r c =
        if s ≤ r ∧ r < s + len ∧ r ≠ i ∧ ¬(|E r i| < EPS) ∧ c < 2 * n
        then E r c - E r i * E i c else E r c
  | 0, s, E, r, c => by
    rw [if_neg (by omega)]
    rfl
  | len + 1, s, E, r, c => by
    rw [List.range'_succ, List.foldl_cons,
      elimOthersAux_apply n i len (s + 1) (elimRowInv n i E s) r c]
    by_cases hrs : r = s
    · subst hrs
      rw [if_neg (by omega)]
      by_cases h1 : r = i
      · rw [if_neg (by tauto)]
        unfold elimRowInv
        rw [if_pos h1]
      · by_cases h2 : |E r i| < EPS
        · rw [if_neg (by tauto)]
          unfold elimRowInv
          rw [if_neg h1, if_pos h2]
        · by_cases h3 : c < 2 * n
          · rw [if_pos ⟨le_rfl, by omega, h1, h2, h3⟩]
            exact elimRowInv_self n i E r c h1 h2 h3
          · rw [if_neg (by tauto)]
            unfold elimRowInv
            rw [if_neg h1, if_neg h2]
            show (if r = r ∧ c < 2 * n then E r c - E r i * E i c else E r c) = E r c
            rw [if_neg (by tauto)]
    · rw [elimRowInv_other n i E s r c hrs, elimRowInv_other n i E s r i hrs,
        elimRowInv_row_i n i E s c]
      by_cases hcond : s ≤ r ∧ r < s + (len + 1) ∧ r ≠ i ∧ ¬(|E r i| < EPS) ∧ c < 2 * n
      · rw [if_pos ⟨by omega, by omega, hcond.2.2.1, hcond.2.2.2.1, hcond.2.2.2.2⟩,
          if_pos hcond]
      · rw [if_neg (by
          intro hh
          obtain ⟨q1, q2, q3, q4, q5⟩ := hh
          exact hcond ⟨by omega, by omega, q3, q4, q5⟩), if_neg hcond]

/-- Pointwise description of `elimOthers`. -/
theorem elimOthers_apply (n i : Nat) (E : Nat → Nat → ℚ) (r c : Nat) :
    elimOthers n i E r c =
      if r < n ∧ r ≠ i ∧ ¬(|E r i| < EPS) ∧ c < 2 * n
      then E r c - E r i * E i c else E r c := by
  unfold elimOthers
  rw [List.range_eq_range', elimOthersAux_apply n i n 0 E r c]
  have hiff : (0 ≤ r ∧ r < 0 + n ∧ r ≠ i ∧ ¬(|E r i| < EPS) ∧ c < 2 * n) ↔
      (r < n ∧ r ≠ i ∧ ¬(|E r i| < EPS) ∧ c < 2 * n) := by
    constructor
    · rintro ⟨-, q2, q3, q4, q5⟩
      exact ⟨by omega, q3, q4, q5⟩
    · rintro ⟨q1, q3, q4, q5⟩
      exact ⟨Nat.zero_le r, by omega, q3, q4, q5⟩
  rw [if_congr hiff rfl rfl]

/-- Transporting the invariant `R * A = L` along a row-copy: if every
block-cell of row `r` of `E'` equals the corresponding block-cell of row
`q` of `E`, the invariant gives the product's row `r`. -/
theorem mul_row_eq (n : Nat) (A : Matrix (Fin n) (Fin n) ℚ) (E E' : Nat → Nat → ℚ)
    (h : rightB n E * A = leftB n E) (r q : Fin n)
    (hR : ∀ c : Fin n, rightB n E' r c = rightB n E q c)
    (hL : ∀ c : Fin n, leftB n E' r c = leftB n E q c) :
    ∀ c : Fin n, (rightB n E' * A) r c = leftB n E' r c := by
  intro c
  rw [Matrix.mul_apply]
  calc ∑ k, rightB n E' r k * A k c
      = ∑ k, rightB n E q k * A k c :=
        Finset.sum_congr rfl fun k _ => by rw [hR k]
    _ = (rightB n E * A) q c := (Matrix.mul_apply).symm
    _ = leftB n E q c := by rw [h]
    _ = leftB n E' r c := (hL c).symm

/-- The invariant `R * A = L` survives a row swap. -/
theorem inv_invariant_swap (n : Nat) (A : Matrix (Fin n) (Fin n) ℚ)
    (E : Nat → Nat → ℚ) (i p : Nat) (hi : i < n) (hp : p < n)
    (h : rightB n E * A = leftB n E) :
    rightB n (rowSwapW E i p (2 * n)) * A = leftB n (rowSwapW E i p (2 * n)) := by
  ext r c
  by_cases hri : (r : Nat) = i
  · refine mul_row_eq n A E _ h r ⟨p, hp⟩ (fun k => ?_) (fun k => ?_) c
    · show rowSwapW E i p (2 * n) ↑r (n + ↑k) = E p (n + ↑k)
      rw [hri]
      exact rowSwapW_fst E i p (2 * n) (n + ↑k) (by omega)
    · show rowSwapW E i p (2 * n) ↑r ↑k = E p ↑k
      rw [hri]
      exact rowSwapW_fst E i p (2 * n) ↑k (by omega)
  · by_cases hrp : (r : Nat) = p
    · refine mul_row_eq n A E _ h r ⟨i, hi⟩ (fun k => ?_) (fun k => ?_) c
      · show rowSwapW E i p (2 * n) ↑r (n + ↑k) = E i (n + ↑k)
        rw [hrp]
        exact rowSwapW_snd E i p (2 * n) (n + ↑k) (by omega) (fun hh => hri (hrp.trans hh))
      · show rowSwapW E i p (2 * n) ↑r ↑k = E i ↑k
        rw [hrp]
        exact rowSwapW_snd E i p (2 * n) ↑k (by omega) (fun hh => hri (hrp.trans hh))
    · refine mul_row_eq n A E _ h r r (fun k => ?_) (fun k => ?_) c
      · show rowSwapW E i p (2 * n) ↑r (n + ↑k) = E ↑r (n + ↑k)
        exact rowSwapW_ne E i p (2 * n) ↑r (n + ↑k) hri hrp
      · show rowSwapW E i p (2 * n) ↑r ↑k = E ↑r ↑k
        exact rowSwapW_ne E i p (2 * n) ↑r ↑k hri hrp

/-- The invariant `R * A = L` survives the swap-and-normalise step (also
when the divisor is `0`, since `x / 0 = 0` uniformly scales the row). -/
theorem inv_invariant_swapnorm (n : Nat) (A : Matrix (Fin n) (Fin n) ℚ)
    (E : Nat → Nat → ℚ) (i piv : Nat) (hi : i < n) (hp : piv < n)
    (h : rightB n E * A = leftB n E) :
    rightB n (invSwapNorm n i E piv) * A = leftB n (invSwapNorm n i E piv) := by
  have h1 := inv_invariant_swap n A E i piv hi hp h
  ext r c
  rw [Matrix.mul_apply]
  by_cases hri : (r : Nat) = i
  · have hRrow : ∀ k : Fin n, rightB n (invSwapNorm n i E piv) r k
        = rightB n (rowSwapW E i piv (2 * n)) r k / rowSwapW E i piv (2 * n) i i := by
      intro k
      show (if (r : Nat) = i ∧ n + (k : Nat) < 2 * n
          then rowSwapW E i piv (2 * n) ↑r (n + ↑k) / rowSwapW E i piv (2 * n) i i
          else rowSwapW E i piv (2 * n) ↑r (n + ↑k)) = _
      rw [if_pos ⟨hri, by omega⟩]
      rfl
    have hLrow : leftB n (invSwapNorm n i E piv) r c
        = leftB n (rowSwapW E i piv (2 * n)) r c / rowSwapW E i piv (2 * n) i i := by
      show (if (r : Nat) = i ∧ (c : Nat) < 2 * n
          then rowSwapW E i piv (2 * n) ↑r ↑c / rowSwapW E i piv (2 * n) i i
          else rowSwapW E i piv (2 * n) ↑r ↑c) = _
      rw [if_pos ⟨hri, by omega⟩]
      rfl
    calc ∑ k, rightB n (invSwapNorm n i E piv) r k * A k c
        = ∑ k, rightB n (rowSwapW E i piv (2 * n)) r k * A k c
            / rowSwapW E i piv (2 * n) i i :=
          Finset.sum_congr rfl fun k _ => by rw [hRrow k, div_mul_eq_mul_div]
      _ = (∑ k, rightB n (rowSwapW E i piv (2 * n)) r k * A k c)
            / rowSwapW E i piv (2 * n) i i := by rw [Finset.sum_div]
      _ = (rightB n (rowSwapW E i piv (2 * n)) * A) r c
            / rowSwapW E i piv (2 * n) i i := by rw [Matrix.mul_apply]
      _ = leftB n (rowSwapW E i piv (2 * n)) r c
            / rowSwapW E i piv (2 * n) i i := by rw [h1]
      _ = leftB n (invSwapNorm n i E piv) r c := hLrow.symm
  · have hRrow : ∀ k : Fin n, rightB n (invSwapNorm n i E piv) r k
        = rightB n (rowSwapW E i piv (2 * n)) r k := by
      intro k
      show (if (r : Nat) = i ∧ n + (k : Nat) < 2 * n then _ else _) = _
      rw [if_neg (by tauto)]
      rfl
    have hLrow : leftB n (invSwapNorm n i E piv) r c
        = leftB n (rowSwapW E i piv (2 * n)) r c := by
      show (if (r : Nat) = i ∧ (c : Nat) < 2 * n then _ else _) = _
      rw [if_neg (by tauto)]
      rfl
    calc ∑ k, rightB n (invSwapNorm n i E piv) r k * A k c
        = ∑ k, rightB n (rowSwapW E i piv (2 * n)) r k * A k c :=
          Finset.sum_congr rfl fun k _ => by rw [hRrow k]
      _ = (rightB n (rowSwapW E i piv (2 * n)) * A) r c := (Matrix.mul_apply).symm
      _ = leftB n (rowSwapW E i piv (2 * n)) r c := by rw [h1]
      _ = leftB n (invSwapNorm n i E piv) r c := hLrow.symm

/-- The invariant `R * A = L` survives one elimination step (both `continue`
branches and the performed row update). -/
theorem inv_invariant_elimRow (n : Nat) (A : Matrix (Fin n) (Fin n) ℚ)
    (E : Nat → Nat → ℚ) (i s : Nat) (hi : i < n)
    (h : rightB n E * A = leftB n E) :
    rightB n (elimRowInv n i E s) * A = leftB n (elimRowInv n i E s) := by
  by_cases h1 : s = i
  · unfold elimRowInv
    rw [if_pos h1]
    exact h
  by_cases h2 : |E s i| < EPS
  · unfold elimRowInv
    rw [if_neg h1, if_pos h2]
    exact h
  by_cases hsn : s < n
  · ext r c
    by_cases hrs : (r : Nat) = s
    · rw [Matrix.mul_apply]
      have hRrow : ∀ k : Fin n, rightB n (elimRowInv n i E s) r k
          = rightB n E ⟨s, hsn⟩ k - E s i * rightB n E ⟨i, hi⟩ k := by
        intro k
        show elimRowInv n i E s ↑r (n + ↑k) = _
        rw [hrs, elimRowInv_self n i E s (n + ↑k) h1 h2 (by omega)]
        rfl
      have hLrow : leftB n (elimRowInv n i E s) r c
          = leftB n E ⟨s, hsn⟩ c - E s i * leftB n E ⟨i, hi⟩ c := by
        show elimRowInv n i E s ↑r ↑c = _
        rw [hrs, elimRowInv_self n i E s ↑c h1 h2 (by omega)]
        rfl
      calc ∑ k, rightB n (elimRowInv n i E s) r k * A k c
          = ∑ k, (rightB n E ⟨s, hsn⟩ k * A k c
              - E s i * (rightB n E ⟨i, hi⟩ k * A k c)) :=
            Finset.sum_congr rfl fun k _ => by rw [hRrow k]; ring
        _ = (∑ k, rightB n E ⟨s, hsn⟩ k * A k c)
              - E s i * ∑ k, rightB n E ⟨i, hi⟩ k * A k c := by
            rw [Finset.sum_sub_distrib, Finset.mul_sum]
        _ = (rightB n E * A) ⟨s, hsn⟩ c - E s i * (rightB n E * A) ⟨i, hi⟩ c := by
            rw [Matrix.mul_apply, Matrix.mul_apply]
        _ = leftB n E ⟨s, hsn⟩ c - E s i * leftB n E ⟨i, hi⟩ c := by rw [h]
        _ = leftB n (elimRowInv n i E s) r c := hLrow.symm
    · refine mul_row_eq n A E _ h r r (fun k => ?_) (fun k => ?_) c
      · show elimRowInv n i E s ↑r (n + ↑k) = E ↑r (n + ↑k)
        exact elimRowInv_other n i E s ↑r (n + ↑k) hrs
      · show elimRowInv n i E s ↑r ↑k = E ↑r ↑k
        exact elimRowInv_other n i E s ↑r ↑k hrs
  · ext r c
    refine mul_row_eq n A E _ h r r (fun k => ?_) (fun k => ?_) c
    · show elimRowInv n i E s ↑r (n + ↑k) = E ↑r (n + ↑k)
      exact elimRowInv_other n i E s ↑r (n + ↑k) (by omega)
    · show elimRowInv n i E s ↑r ↑k = E ↑r ↑k
      exact elimRowInv_other n i E s ↑r ↑k (by omega)

/-- The invariant `R * A = L` survives the whole elimination fold. -/
theorem inv_invariant_elimOthers (n : Nat) (A : Matrix (Fin n) (Fin n) ℚ)
    (i : Nat) (hi : i < n) :
    ∀ (l : List Nat) (E : Nat → Nat → ℚ), rightB n E * A = leftB n E →
      rightB n (l.foldl (elimRowInv n i) E) * A = leftB n (l.foldl (elimRowInv n i) E)
  | [], _, h => h
  | s :: l, E, h => by
    rw [List.foldl_cons]
    exact inv_invariant_elimOthers n A i hi l (elimRowInv n i E s)
      (inv_invariant_elimRow n A E i s hi h)

/-- The invariant `R * A = L` survives a whole column step of the
Gauss-Jordan loop. -/
theorem inv_invariant_invStep (n : Nat) (A : Matrix (Fin n) (Fin n) ℚ)
    (E : Nat → Nat → ℚ) (i piv : Nat) (hi : i < n) (hp : piv < n)
    (h : rightB n E * A = leftB n E) :
    rightB n (invStep n i E piv) * A = leftB n (invStep n i E piv) := by
  unfold invStep elimOthers
  exact inv_invariant_elimOthers n A i hi _ _
    (inv_invariant_swapnorm n A E i piv hi hp h)

/-- Unpacking `invFactorsClean`: every factor at column `i` is either `0`
or at least `EPS` in magnitude. -/
theorem invFactorsClean_spec (n i : Nat) (E2 : Nat → Nat → ℚ)
    (h : invFactorsClean n i E2 = true) :
    ∀ r, r < n → r ≠ i → E2 r i = 0 ∨ EPS ≤ |E2 r i| := by
  intro r hr hne
  have hh := List.all_eq_true.mp h r (List.mem_range.mpr hr)
  simp only [Bool.or_eq_true, beq_iff_eq, decide_eq_true_eq] at hh
  rcases hh with hh | hh
  · exact absurd hh hne
  · exact hh

/-- One clean column step advances the partial-identity invariant: after
the step, columns `0..i` of the buffer hold identity columns. -/
theorem inv_L2_step (n i : Nat) (hi : i < n) (E : Nat → Nat → ℚ)
    (hp : ¬ |E (findPivot E i n) i| < EPS)
    (hfac : invFactorsClean n i (invSwapNorm n i E (findPivot E i n)) = true)
    (hL2 : ∀ c r, c < i → r < n → E r c = if r = c then 1 else 0) :
    ∀ c r, c < i + 1 → r < n →
      invStep n i E (findPivot E i n) r c = if r = c then 1 else 0 := by
  obtain ⟨hple, hplt⟩ := findPivot_mem E i n hi
  have hE1 : ∀ c r, c < i → r < n →
      rowSwapW E i (findPivot E i n) (2 * n) r c = if r = c then 1 else 0 := by
    intro c r hc hr
    by_cases hri : r = i
    · rw [hri, rowSwapW_fst E i _ (2 * n) c (by omega), hL2 c _ hc hplt,
        if_neg (show ¬ findPivot E i n = c by omega),
        if_neg (show ¬ i = c by omega)]
    · by_cases hrp : r = findPivot E i n
      · rw [hrp, rowSwapW_snd E i _ (2 * n) c (by omega) (fun hh => hri (hrp.trans hh)),
          hL2 c i hc hi, if_neg (show ¬ i = c by omega),
          if_neg (show ¬ findPivot E i n = c by omega)]
      · rw [rowSwapW_ne E i _ (2 * n) r c hri hrp]
        exact hL2 c r hc hr
  have hpne : rowSwapW E i (findPivot E i n) (2 * n) i i ≠ 0 := by
    rw [rowSwapW_fst E i _ (2 * n) i (by omega)]
    intro h0
    rw [h0] at hp
    exact hp (by norm_num [EPS])
  have hE2 : ∀ c r, c < i → r < n →
      invSwapNorm n i E (findPivot E i n) r c = if r = c then 1 else 0 := by
    intro c r hc hr
    show (if r = i ∧ c < 2 * n
        then rowSwapW E i (findPivot E i n) (2 * n) r c
          / rowSwapW E i (findPivot E i n) (2 * n) i i
        else rowSwapW E i (findPivot E i n) (2 * n) r c) = _
    by_cases hri : r = i
    · rw [if_pos ⟨hri, by omega⟩, hE1 c r hc hr,
        if_neg (show ¬ r = c by omega), zero_div]
    · rw [if_neg (by tauto)]
      exact hE1 c r hc hr
  have hE2ii : invSwapNorm n i E (findPivot E i n) i i = 1 := by
    show (if i = i ∧ i < 2 * n
        then rowSwapW E i (findPivot E i n) (2 * n) i i
          / rowSwapW E i (findPivot E i n) (2 * n) i i
        else rowSwapW E i (findPivot E i n) (2 * n) i i) = 1
    rw [if_pos ⟨rfl, by omega⟩]
    exact div_self hpne
  have hE2rowi : ∀ c, c < i → invSwapNorm n i E (findPivot E i n) i c = 0 := by
    intro c hc
    rw [hE2 c i hc hi, if_neg (show ¬ i = c by omega)]
  intro c r hc hr
  unfold invStep
  rcases Nat.lt_or_ge c i with hci | hci
  · rw [elimOthers_apply]
    by_cases hcond : r < n ∧ r ≠ i ∧
        ¬ |invSwapNorm n i E (findPivot E i n) r i| < EPS ∧ c < 2 * n
    · rw [if_pos hcond, hE2 c r hci hr, hE2rowi c hci, mul_zero, sub_zero]
    · rw [if_neg hcond]
      exact hE2 c r hci hr
  · have hceq : c = i := by omega
    rw [hceq, elimOthers_apply]
    by_cases hri : r = i
    · rw [if_neg (fun hh => hh.2.1 hri), hri, hE2ii, if_pos rfl]
    · by_cases htiny : |invSwapNorm n i E (findPivot E i n) r i| < EPS
      · rw [if_neg (fun hh => hh.2.2.1 htiny)]
        rcases invFactorsClean_spec n i _ hfac r hr hri with h0 | hbig
        · rw [h0, if_neg hri]
        · exact absurd htiny (not_lt.mpr hbig)
      · rw [if_pos ⟨hr, hri, htiny, by omega⟩, hE2ii, mul_one, sub_self, if_neg hri]

/-- Main induction for clean Gauss-Jordan runs: the loop never takes the
singular exit, the invariant `R * A = L` is preserved throughout, and at
the end every column of the left block is an identity column. -/
theorem invLoopS_clean_correct (n : Nat) (A : Matrix (Fin n) (Fin n) ℚ) :
    ∀ fuel i inp E, i + fuel = n →
      invClean n fuel i E = true →
      rightB n E * A = leftB n E →
      (∀ c r, c < i → r < n → E r c = if r = c then 1 else 0) →
      (invLoopS n fuel i ⟨inp, E, false⟩).sing = false ∧
      rightB n (invLoopS n fuel i ⟨inp, E, false⟩).E * A
        = leftB n (invLoopS n fuel i ⟨inp, E, false⟩).E ∧
      (∀ c r, c < n → r < n →
        (invLoopS n fuel i ⟨inp, E, false⟩).E r c = if r = c then 1 else 0)
  | 0, i, inp, E, hin, _, hinv, hL2 =>
    ⟨rfl, hinv, fun c r hc hr => hL2 c r (by omega) hr⟩
  | fuel + 1, i, inp, E, hin, hcl, hinv, hL2 => by
    have hi : i < n := by omega
    simp only [invClean] at hcl
    by_cases hp : |E (findPivot E i n) i| < EPS
    · rw [if_pos hp] at hcl
      exact absurd hcl (by simp)
    · rw [if_neg hp] at hcl
      rw [Bool.and_eq_true] at hcl
      obtain ⟨hfac, hrec⟩ := hcl
      simp only [invLoopS, if_neg hp]
      obtain ⟨hple, hplt⟩ := findPivot_mem E i n hi
      exact invLoopS_clean_correct n A fuel (i + 1) inp
        (invStep n i E (findPivot E i n)) (by omega) hrec
        (inv_invariant_invStep n A E i _ hi hplt hinv)
        (inv_L2_step n i hi E hp hfac hL2)

/-- A left fold of additions over `List.range` is the corresponding finite
sum (the order of accumulation of the C inner product). -/
theorem foldl_add_range (g : Nat → ℚ) :
    ∀ (L : Nat) (init : ℚ),
      (List.range L).foldl (fun acc k => acc + g k) init
        = init + ∑ k ∈ Finset.range L, g k
  | 0, init => by simp
  | L + 1, init => by
    rw [List.range_succ, List.foldl_append, foldl_add_range g L init,
      Finset.sum_range_succ]
    show init + ∑ k ∈ Finset.range L, g k + g L = _
    ring

/-- C1 (amended): on every square matrix whose Gauss-Jordan run is clean —
every selected pivot has magnitude at least `1e-12` (the claim's
invertibility premise) and, additionally, every elimination factor the
`fabs(factor) < EPS` test skips is exactly `0` — `matrix_inverse` succeeds
and `multiply(A, inverse(A))` is exactly the identity matrix.  The
counterexample `cexA1` shows the pivot premise alone, as the claim states
it, is not sufficient. -/
theorem mul_inverse_eq_identity (a : CMatrix) (hsq : a.rows = a.cols)
    (hcl : invClean a.rows a.rows 0 (augInit a) = true) :
    matrixEqO (matrix_multiply (some a) (matrix_inverse (some a)))
      (identityMatrix a.rows) := by
  have hR0 : rightB a.rows (augInit a) = (1 : Matrix (Fin a.rows) (Fin a.rows) ℚ) := by
    ext r c
    show augInit a ↑r (a.rows + ↑c) = _
    unfold augInit
    rw [if_neg (by omega), if_pos ⟨r.isLt, by omega⟩, Matrix.one_apply]
    by_cases hrc : (r : Nat) = (c : Nat)
    · rw [if_pos (by omega), if_pos (Fin.ext hrc)]
    · rw [if_neg (by omega), if_neg (fun hh => hrc (congrArg Fin.val hh))]
  have hL0 : leftB a.rows (augInit a) = toMat a.rows a.data := by
    ext r c
    show augInit a ↑r ↑c = a.data ↑r ↑c
    unfold augInit
    rw [if_pos ⟨r.isLt, c.isLt⟩]
  have hinv0 : rightB a.rows (augInit a) * toMat a.rows a.data
      = leftB a.rows (augInit a) := by
    rw [hR0, hL0, Matrix.one_mul]
  obtain ⟨hs, hRA, hL2⟩ := invLoopS_clean_correct a.rows (toMat a.rows a.data)
    a.rows 0 a.data (augInit a) (by omega) hcl hinv0
    (fun c r hc _ => absurd hc (Nat.not_lt_zero c))
  have hL1 : leftB a.rows (invLoopS a.rows a.rows 0 ⟨a.data, augInit a, false⟩).E
      = (1 : Matrix (Fin a.rows) (Fin a.rows) ℚ) := by
    ext r c
    rw [Matrix.one_apply]
    show (invLoopS a.rows a.rows 0 ⟨a.data, augInit a, false⟩).E ↑r ↑c = _
    rw [hL2 ↑c ↑r c.isLt r.isLt]
    by_cases hrc : (r : Nat) = (c : Nat)
    · rw [if_pos hrc, if_pos (Fin.ext hrc)]
    · rw [if_neg hrc, if_neg (fun hh => hrc (congrArg Fin.val hh))]
  have hAR : toMat a.rows a.data
      * rightB a.rows (invLoopS a.rows a.rows 0 ⟨a.data, augInit a, false⟩).E = 1 :=
    Matrix.mul_eq_one_comm.mpr (by rw [hRA, hL1])
  have hns : ¬ a.rows ≠ a.cols := fun hcc => hcc hsq
  have hinv_eq : matrix_inverse (some a) = some ⟨a.rows, a.rows, fun i j =>
      if i < a.rows ∧ j < a.rows
      then (invLoopS a.rows a.rows 0 ⟨a.data, augInit a, false⟩).E i (a.rows + j)
      else 0⟩ := by
    simp only [matrix_inverse, if_neg hns, hs, Bool.false_eq_true, if_false]
  rw [hinv_eq]
  simp only [matrix_multiply]
  rw [if_neg (show ¬ a.cols ≠ a.rows from fun hh => hh hsq.symm)]
  simp only [matrixEqO, matrixEq]
  refine ⟨rfl, rfl, fun i hi j hj => ?_⟩
  have hi' : i < a.rows := hi
  have hj' : j < a.rows := hj
  simp only [if_pos (And.intro hi' hj')]
  rw [← hsq, foldl_add_range, zero_add]
  have hsum : ∑ k ∈ Finset.range a.rows, a.data i k *
      (if k < a.rows ∧ j < a.rows
        then (invLoopS a.rows a.rows 0 ⟨a.data, augInit a, false⟩).E k (a.rows + j)
        else 0)
      = ∑ k ∈ Finset.range a.rows, a.data i k *
        (invLoopS a.rows a.rows 0 ⟨a.data, augInit a, false⟩).E k (a.rows + j) := by
    refine Finset.sum_congr rfl fun k hk => ?_
    rw [if_pos ⟨Finset.mem_range.mp hk, hj'⟩]
  rw [hsum, ← Fin.sum_univ_eq_sum_range
    (fun k => a.data i k *
      (invLoopS a.rows a.rows 0 ⟨a.data, augInit a, false⟩).E k (a.rows + j)) a.rows]
  calc ∑ k : Fin a.rows, a.data i ↑k *
        (invLoopS a.rows a.rows 0 ⟨a.data, augInit a, false⟩).E ↑k (a.rows + j)
      = (toMat a.rows a.data *
          rightB a.rows (invLoopS a.rows a.rows 0 ⟨a.data, augInit a, false⟩).E)
          ⟨i, hi'⟩ ⟨j, hj'⟩ := by
        rw [Matrix.mul_apply]
        rfl
    _ = (1 : Matrix (Fin a.rows) (Fin a.rows) ℚ) ⟨i, hi'⟩ ⟨j, hj'⟩ := by rw [hAR]
    _ = (identityMatrix a.rows).data i j := by
        rw [Matrix.one_apply]
        have hid : (identityMatrix a.rows).data i j
            = if i = j then (1 : ℚ) else 0 := by
          simp only [identityMatrix]
          rw [if_pos (And.intro hi' hj')]
        rw [hid]
        by_cases hij : i = j
        · rw [if_pos hij, if_pos (Fin.ext hij)]
        · rw [if_neg (fun hh => hij (congrArg Fin.val hh)), if_neg hij]

/-- Witness for the amended C1 at the spec's invertible scenario
`[[4, 3], [6, 3]]`, whose run is clean. -/
theorem mul_inverse_eq_identity_witness :
    matrixEqO (matrix_multiply (some mGood) (matrix_inverse (some mGood)))
      (identityMatrix mGood.rows) :=
  mul_inverse_eq_identity mGood rfl (by decide)

end MatrixC
